import Mathlib

/-!
Verification of the host-side FreeRTOS runtime, NVS store and UART log ring
of the cyd-emulator repository.

Each definition is a shallow embedding of the corresponding C function in
src/src/emu_freertos.c, src/src/emu_nvs.c or src/src/emu_flexe.c.  Machine
integers are modelled as Nat or Int; C byte buffers are modelled as lists of
byte values; handle-indexed tables are modelled as functions from slot index.
Blocking operations are modelled by their single-thread semantics: a blocking
wait whose predicate no other thread can change either succeeds immediately
or times out, so the state transition depends only on the current state.
-/

/-! ## FreeRTOS.h constants (src/include/freertos/FreeRTOS.h) -/

def pdTRUE : Int := 1
def pdFALSE : Int := 0
def pdPASS : Int := 1
def pdFAIL : Int := 0

/-- portMAX_DELAY is ((TickType_t)0xFFFFFFFF). -/
def portMAX_DELAY : Nat := 4294967295

/-! ## Semaphores (emu_freertos.c lines 297-471)

struct emu_semaphore holds an int count, an int max_count and a type tag;
the pthread mutex and condvar only serialize access and are not part of the
observable state. -/

/-- Semaphore type tags, from the C enum SEM_MUTEX, SEM_BINARY, SEM_COUNTING,
SEM_RECURSIVE. -/
def SEM_MUTEX : Nat := 0
def SEM_BINARY : Nat := 1
def SEM_COUNTING : Nat := 2
def SEM_RECURSIVE : Nat := 3

structure EmuSemaphore where
  count : Int
  max_count : Int
  stype : Nat
deriving Repr, DecidableEq

/-- sem_create(type, initial, max_count): calloc + field init. -/
def sem_create (t : Nat) (initial max_count : Int) : EmuSemaphore :=
  { count := initial, max_count := max_count, stype := t }

/-- xSemaphoreCreateCounting(uxMaxCount, uxInitialCount) =
sem_create(SEM_COUNTING, initial, max). -/
def xSemaphoreCreateCounting (uxMaxCount uxInitialCount : Nat) : EmuSemaphore :=
  sem_create SEM_COUNTING (Int.ofNat uxInitialCount) (Int.ofNat uxMaxCount)

/-- xSemaphoreGive: fails (pdFAIL) if count >= max_count, otherwise
increments count and returns pdTRUE. -/
def xSemaphoreGive (s : EmuSemaphore) : Int × EmuSemaphore :=
  if s.count ≥ s.max_count then (pdFAIL, s)
  else (pdTRUE, { s with count := s.count + 1 })

/-- xSemaphoreTake: if count > 0, decrement and return pdTRUE (fast path);
otherwise with xTicksToWait = 0 return pdFALSE at once, and with a positive
wait no other thread can raise the count in a single-thread run, so the
deadline expires and the result is again pdFALSE with the state unchanged. -/
def xSemaphoreTake (s : EmuSemaphore) (xTicksToWait : Nat) : Int × EmuSemaphore :=
  if s.count > 0 then (pdTRUE, { s with count := s.count - 1 })
  else (pdFALSE, s)

/-- Results and final state of n consecutive xSemaphoreGive calls. -/
def semGiveSeq (s : EmuSemaphore) : Nat → List Int × EmuSemaphore
  | 0 => ([], s)
  | n + 1 =>
    let r := xSemaphoreGive s
    let rest := semGiveSeq r.2 n
    (r.1 :: rest.1, rest.2)

/-- Results and final state of n consecutive xSemaphoreTake(ticks) calls. -/
def semTakeSeq (s : EmuSemaphore) (ticks : Nat) : Nat → List Int × EmuSemaphore
  | 0 => ([], s)
  | n + 1 =>
    let r := xSemaphoreTake s ticks
    let rest := semTakeSeq r.2 ticks n
    (r.1 :: rest.1, rest.2)

/-- C2: for a counting semaphore created with max_count 3 and initial count 0,
four consecutive gives return success, success, success, failure leaving the
count at 3, and from that state four consecutive non-blocking takes return
success, success, success, failure leaving the count at 0. -/
theorem counting_semaphore_give_take_3 :
    (semGiveSeq (xSemaphoreCreateCounting 3 0) 4).1 = [pdTRUE, pdTRUE, pdTRUE, pdFAIL] ∧
    (semGiveSeq (xSemaphoreCreateCounting 3 0) 4).2.count = 3 ∧
    (semTakeSeq (semGiveSeq (xSemaphoreCreateCounting 3 0) 4).2 0 4).1 =
      [pdTRUE, pdTRUE, pdTRUE, pdFALSE] ∧
    (semTakeSeq (semGiveSeq (xSemaphoreCreateCounting 3 0) 4).2 0 4).2.count = 0 := by
  decide

/-! ## Queues (emu_freertos.c lines 477-710)

struct emu_queue is a ring buffer: buffer, item_size, capacity, head (next
write position), tail (next read position), count.  Every buffer access in
the C code is a memcpy of exactly item_size bytes at slot offset
(slot * item_size), so the byte buffer is modelled per slot: buffer maps a
slot index to the item_size bytes stored there, abstracted as one value of
type A.  The claims fix item_size >= 1 and a non-null item pointer, so the
`item_size > 0 && pvItemToQueue` guards around each memcpy are taken. -/

structure EmuQueue (A : Type) where
  buffer : Nat → A
  capacity : Nat
  head : Nat
  tail : Nat
  count : Nat

/-- xQueueCreate(uxQueueLength, uxItemSize): calloc zeroes the struct and the
buffer, so head = tail = count = 0 and every slot holds the all-zero item,
modelled by the default value of A. -/
def xQueueCreate (A : Type) [Inhabited A] (uxQueueLength : Nat) : EmuQueue A :=
  { buffer := fun _ => default, capacity := uxQueueLength,
    head := 0, tail := 0, count := 0 }

/-- xQueueSendToBack: when the queue is full, a zero-tick call returns
pdFALSE at once and a positive-tick call times out in a single-thread run
(no consumer can lower count), also pdFALSE; otherwise the item is copied to
slot head, head advances modulo capacity, count is incremented, pdTRUE. -/
def xQueueSendToBack {A : Type} (q : EmuQueue A) (v : A) : Int × EmuQueue A :=
  if q.count ≥ q.capacity then (pdFALSE, q)
  else (pdTRUE,
    { q with buffer := fun j => if j = q.head then v else q.buffer j,
             head := (q.head + 1) % q.capacity,
             count := q.count + 1 })

/-- xQueueSend is a direct alias of xQueueSendToBack. -/
def xQueueSend {A : Type} (q : EmuQueue A) (v : A) : Int × EmuQueue A :=
  xQueueSendToBack q v

/-- xQueueSendToFront: same full-queue handling; otherwise tail moves back
one slot (wrapping from 0 to capacity - 1), the item is copied to the new
tail, count is incremented, pdTRUE. -/
def xQueueSendToFront {A : Type} (q : EmuQueue A) (v : A) : Int × EmuQueue A :=
  if q.count ≥ q.capacity then (pdFALSE, q)
  else
    let t := if q.tail = 0 then q.capacity - 1 else q.tail - 1
    (pdTRUE,
      { q with buffer := fun j => if j = t then v else q.buffer j,
               tail := t,
               count := q.count + 1 })

/-- xQueueOverwrite: if full, first discard the oldest item (tail advances,
count decremented); then write at head as in send-to-back; always pdTRUE. -/
def xQueueOverwrite {A : Type} (q : EmuQueue A) (v : A) : Int × EmuQueue A :=
  let q1 := if q.count ≥ q.capacity then
      { q with tail := (q.tail + 1) % q.capacity, count := q.count - 1 }
    else q
  (pdTRUE,
    { q1 with buffer := fun j => if j = q1.head then v else q1.buffer j,
              head := (q1.head + 1) % q1.capacity,
              count := q1.count + 1 })

/-- xQueueReceive: when the queue is empty, a zero-tick call returns pdFALSE
at once and a positive-tick call times out in a single-thread run, also
pdFALSE with no value copied; otherwise the item at tail is copied out, tail
advances modulo capacity, count is decremented, pdTRUE. -/
def xQueueReceive {A : Type} (q : EmuQueue A) : Int × Option A × EmuQueue A :=
  if q.count = 0 then (pdFALSE, none, q)
  else (pdTRUE, some (q.buffer q.tail),
    { q with tail := (q.tail + 1) % q.capacity, count := q.count - 1 })

/-- xQueuePeek: like xQueueReceive but the item is not removed. -/
def xQueuePeek {A : Type} (q : EmuQueue A) : Int × Option A × EmuQueue A :=
  if q.count = 0 then (pdFALSE, none, q)
  else (pdTRUE, some (q.buffer q.tail), q)

/-- xQueueReset: zero head, tail and count; returns pdPASS. -/
def xQueueReset {A : Type} (q : EmuQueue A) : Int × EmuQueue A :=
  (pdPASS, { q with head := 0, tail := 0, count := 0 })

/-- One queue operation, for quantifying over operation sequences. -/
inductive QueueOp (A : Type) where
  | sendBack (v : A)
  | sendFront (v : A)
  | overwrite (v : A)
  | recv
  | peek
  | reset

/-- State transition of a single queue operation. -/
def applyQueueOp {A : Type} (q : EmuQueue A) : QueueOp A → EmuQueue A
  | .sendBack v => (xQueueSendToBack q v).2
  | .sendFront v => (xQueueSendToFront q v).2
  | .overwrite v => (xQueueOverwrite q v).2
  | .recv => (xQueueReceive q).2.2
  | .peek => (xQueuePeek q).2.2
  | .reset => (xQueueReset q).2

/-- State after a sequence of queue operations. -/
def applyQueueOps {A : Type} (q : EmuQueue A) (ops : List (QueueOp A)) : EmuQueue A :=
  ops.foldl applyQueueOp q

/-- The ring-buffer invariant of struct emu_queue. -/
def queueInv {A : Type} (q : EmuQueue A) : Prop :=
  q.count ≤ q.capacity ∧ q.head < q.capacity ∧ q.tail < q.capacity ∧
    q.head = (q.tail + q.count) % q.capacity

theorem queueInv_create (A : Type) [Inhabited A] (n : Nat) (hn : 1 ≤ n) :
    queueInv (xQueueCreate A n) := by
  refine ⟨Nat.zero_le n, hn, hn, ?_⟩
  simp [xQueueCreate]

theorem capacity_applyQueueOp {A : Type} (q : EmuQueue A) (op : QueueOp A) :
    (applyQueueOp q op).capacity = q.capacity := by
  cases op <;>
    simp only [applyQueueOp, xQueueSendToBack, xQueueSendToFront, xQueueOverwrite,
      xQueueReceive, xQueuePeek, xQueueReset] <;>
    split <;> rfl

theorem queueInv_sendToBack {A : Type} (q : EmuQueue A) (v : A)
    (h : queueInv q) : queueInv (xQueueSendToBack q v).2 := by
  obtain ⟨hc, hh, ht, he⟩ := h
  by_cases hfull : q.count ≥ q.capacity
  · simp only [xQueueSendToBack, if_pos hfull]
    exact ⟨hc, hh, ht, he⟩
  · have hlt : q.count < q.capacity := Nat.lt_of_not_le hfull
    have hpos : 0 < q.capacity := Nat.lt_of_le_of_lt (Nat.zero_le _) hlt
    simp only [xQueueSendToBack, if_neg hfull, queueInv]
    refine ⟨hlt, Nat.mod_lt _ hpos, ht, ?_⟩
    rw [he, Nat.mod_add_mod, Nat.add_assoc]

theorem queueInv_sendToFront {A : Type} (q : EmuQueue A) (v : A)
    (h : queueInv q) : queueInv (xQueueSendToFront q v).2 := by
  obtain ⟨hc, hh, ht, he⟩ := h
  by_cases hfull : q.count ≥ q.capacity
  · simp only [xQueueSendToFront, if_pos hfull]
    exact ⟨hc, hh, ht, he⟩
  · have hlt : q.count < q.capacity := Nat.lt_of_not_le hfull
    have hpos : 0 < q.capacity := Nat.lt_of_le_of_lt (Nat.zero_le _) hlt
    simp only [xQueueSendToFront, if_neg hfull, queueInv]
    by_cases h0 : q.tail = 0
    · rw [if_pos h0]
      refine ⟨hlt, hh, by omega, ?_⟩
      rw [he, h0]
      have e1 : q.capacity - 1 + (q.count + 1) = q.count + q.capacity := by omega
      rw [e1, Nat.add_mod_right, Nat.zero_add]
    · rw [if_neg h0]
      refine ⟨hlt, hh, by omega, ?_⟩
      rw [he]
      congr 1
      omega

theorem queueInv_overwrite {A : Type} (q : EmuQueue A) (v : A)
    (h : queueInv q) : queueInv (xQueueOverwrite q v).2 := by
  obtain ⟨hc, hh, ht, he⟩ := h
  have hpos : 0 < q.capacity := Nat.lt_of_le_of_lt (Nat.zero_le _) hh
  by_cases hfull : q.count ≥ q.capacity
  · have hceq : q.count = q.capacity := Nat.le_antisymm hc hfull
    simp only [xQueueOverwrite, if_pos hfull, queueInv]
    refine ⟨by omega, Nat.mod_lt _ hpos, Nat.mod_lt _ hpos, ?_⟩
    rw [he, Nat.mod_add_mod, Nat.mod_add_mod]
    congr 1
    omega
  · have hlt : q.count < q.capacity := Nat.lt_of_not_le hfull
    simp only [xQueueOverwrite, if_neg hfull, queueInv]
    refine ⟨hlt, Nat.mod_lt _ hpos, ht, ?_⟩
    rw [he, Nat.mod_add_mod, Nat.add_assoc]

theorem queueInv_receive {A : Type} (q : EmuQueue A)
    (h : queueInv q) : queueInv (xQueueReceive q).2.2 := by
  obtain ⟨hc, hh, ht, he⟩ := h
  by_cases h0 : q.count = 0
  · simp only [xQueueReceive, if_pos h0]
    exact ⟨hc, hh, ht, he⟩
  · have hpos : 0 < q.capacity := Nat.lt_of_le_of_lt (Nat.zero_le _) ht
    simp only [xQueueReceive, if_neg h0, queueInv]
    refine ⟨by omega, hh, Nat.mod_lt _ hpos, ?_⟩
    rw [he, Nat.mod_add_mod]
    congr 1
    omega

theorem queueInv_peek {A : Type} (q : EmuQueue A)
    (h : queueInv q) : queueInv (xQueuePeek q).2.2 := by
  obtain ⟨hc, hh, ht, he⟩ := h
  by_cases h0 : q.count = 0
  · simp only [xQueuePeek, if_pos h0]
    exact ⟨hc, hh, ht, he⟩
  · simp only [xQueuePeek, if_neg h0]
    exact ⟨hc, hh, ht, he⟩

theorem queueInv_reset {A : Type} (q : EmuQueue A)
    (h : queueInv q) : queueInv (xQueueReset q).2 := by
  obtain ⟨hc, hh, ht, he⟩ := h
  have hpos : 0 < q.capacity := Nat.lt_of_le_of_lt (Nat.zero_le _) ht
  exact ⟨Nat.zero_le _, hpos, hpos, by simp [xQueueReset, Nat.mod_eq_of_lt hpos]⟩

theorem queueInv_applyQueueOp {A : Type} (q : EmuQueue A) (op : QueueOp A)
    (h : queueInv q) : queueInv (applyQueueOp q op) := by
  cases op with
  | sendBack v => exact queueInv_sendToBack q v h
  | sendFront v => exact queueInv_sendToFront q v h
  | overwrite v => exact queueInv_overwrite q v h
  | recv => exact queueInv_receive q h
  | peek => exact queueInv_peek q h
  | reset => exact queueInv_reset q h

theorem queueInv_applyQueueOps {A : Type} (q : EmuQueue A)
    (ops : List (QueueOp A)) (h : queueInv q) : queueInv (applyQueueOps q ops) := by
  induction ops generalizing q with
  | nil => exact h
  | cons op ops ih => exact ih _ (queueInv_applyQueueOp q op h)

/-- C10: every sequence of queue operations starting from a queue created
with capacity at least 1 preserves the ring-buffer invariant: count is at
most the capacity, head and tail are below the capacity, and head equals
(tail + count) modulo capacity. -/
theorem queue_ring_invariant (A : Type) [Inhabited A] (n : Nat)
    (ops : List (QueueOp A)) (hn : 1 ≤ n) :
    queueInv (applyQueueOps (xQueueCreate A n) ops) :=
  queueInv_applyQueueOps _ ops (queueInv_create A n hn)

/-- C10 witness. -/
theorem queue_ring_invariant_witness :
    queueInv (applyQueueOps (xQueueCreate Nat 2)
      [QueueOp.sendBack 7, QueueOp.sendFront 8, QueueOp.recv, QueueOp.overwrite 9,
       QueueOp.peek, QueueOp.reset]) :=
  queue_ring_invariant Nat 2 _ (by decide)

/-! ## FIFO abstraction of the queue ring buffer

absQ reads the live region of the ring buffer: the count items starting at
tail, in ring order.  xQueueSendToBack appends to this list, xQueueSendToFront
prepends, xQueueReceive removes the first element. -/

def absQ {A : Type} (q : EmuQueue A) : List A :=
  (List.range q.count).map (fun i => q.buffer ((q.tail + i) % q.capacity))

theorem length_absQ {A : Type} (q : EmuQueue A) : (absQ q).length = q.count := by
  simp [absQ]

theorem absQ_create (A : Type) [Inhabited A] (n : Nat) : absQ (xQueueCreate A n) = [] := by
  simp [absQ, xQueueCreate]

theorem add_mod_ne_add_mod (t c n : Nat) (hc0 : 0 < c) (hcn : c < n) :
    (t + 0) % n ≠ (t + c) % n := by
  intro h
  have h2 : Nat.ModEq n t (t + c) := by
    show t % n = (t + c) % n
    simpa using h
  rw [Nat.modEq_iff_dvd' (Nat.le_add_right _ _)] at h2
  have h3 : n ∣ c := by simpa using h2
  have := Nat.le_of_dvd hc0 h3
  omega

theorem absQ_sendToBack {A : Type} (q : EmuQueue A) (v : A)
    (h : queueInv q) (hroom : q.count < q.capacity) :
    (xQueueSendToBack q v).1 = pdTRUE ∧
      absQ (xQueueSendToBack q v).2 = absQ q ++ [v] := by
  obtain ⟨hc, hh, ht, he⟩ := h
  have hnotfull : ¬ q.count ≥ q.capacity := Nat.not_le_of_lt hroom
  refine ⟨by simp [xQueueSendToBack, if_neg hnotfull], ?_⟩
  simp only [xQueueSendToBack, if_neg hnotfull, absQ]
  rw [List.range_succ, List.map_append]
  congr 1
  · refine List.map_congr_left (fun i hi => ?_)
    have hi2 : i < q.count := List.mem_range.mp hi
    have hne : (q.tail + i) % q.capacity ≠ q.head := by
      rw [he]
      have h0 := add_mod_ne_add_mod (q.tail + i) (q.count - i) q.capacity
        (by omega) (by omega)
      have e1 : q.tail + i + 0 = q.tail + i := by omega
      have e2 : q.tail + i + (q.count - i) = q.tail + q.count := by omega
      rw [e1, e2] at h0
      exact h0
    simp [hne]
  · have hpos : (q.tail + q.count) % q.capacity = q.head := he.symm
    simp [hpos]

theorem absQ_receive {A : Type} (q : EmuQueue A)
    (h : queueInv q) (hne : q.count ≠ 0) :
    (xQueueReceive q).1 = pdTRUE ∧
      (xQueueReceive q).2.1 = some (q.buffer q.tail) ∧
      absQ q = q.buffer q.tail :: absQ (xQueueReceive q).2.2 := by
  obtain ⟨hc, hh, ht, he⟩ := h
  obtain ⟨m, hm⟩ := Nat.exists_eq_succ_of_ne_zero hne
  refine ⟨by simp [xQueueReceive, if_neg hne], by simp [xQueueReceive, if_neg hne], ?_⟩
  simp only [xQueueReceive, if_neg hne, absQ]
  rw [hm]
  have hm1 : m + 1 - 1 = m := by omega
  rw [hm1, List.range_succ_eq_map, List.map_cons, List.map_map]
  congr 1
  · rw [Nat.add_zero, Nat.mod_eq_of_lt ht]
  · refine List.map_congr_left (fun i hi => ?_)
    have e3 : q.tail + 1 + i = q.tail + (i + 1) := by omega
    simp only [Function.comp, Nat.succ_eq_add_one, Nat.mod_add_mod, e3]

theorem absQ_sendToFront {A : Type} (q : EmuQueue A) (v : A)
    (h : queueInv q) (hroom : q.count < q.capacity) :
    (xQueueSendToFront q v).1 = pdTRUE ∧
      absQ (xQueueSendToFront q v).2 = v :: absQ q := by
  obtain ⟨hc, hh, ht, he⟩ := h
  have hpos : 0 < q.capacity := Nat.lt_of_le_of_lt (Nat.zero_le _) ht
  have hnotfull : ¬ q.count ≥ q.capacity := Nat.not_le_of_lt hroom
  refine ⟨by simp [xQueueSendToFront, if_neg hnotfull], ?_⟩
  simp only [xQueueSendToFront, if_neg hnotfull, absQ]
  rw [List.range_succ_eq_map, List.map_cons, List.map_map]
  have htlt : (if q.tail = 0 then q.capacity - 1 else q.tail - 1) < q.capacity := by
    split <;> omega
  congr 1
  · rw [Nat.add_zero, Nat.mod_eq_of_lt htlt]
    simp
  · refine List.map_congr_left (fun i hi => ?_)
    have hi2 : i < q.count := List.mem_range.mp hi
    set t := if q.tail = 0 then q.capacity - 1 else q.tail - 1 with hts
    have hpossame : (t + (i + 1)) % q.capacity = (q.tail + i) % q.capacity := by
      by_cases h0 : q.tail = 0
      · have e1 : t + (i + 1) = q.capacity + i := by rw [hts, if_pos h0]; omega
        have e2 : (q.capacity + i) % q.capacity = i := by
          rw [Nat.add_comm, Nat.add_mod_right,
            Nat.mod_eq_of_lt (show i < q.capacity by omega)]
        rw [e1, e2, h0, Nat.zero_add,
          Nat.mod_eq_of_lt (show i < q.capacity by omega)]
      · have e1 : t + (i + 1) = q.tail + i := by rw [hts, if_neg h0]; omega
        rw [e1]
    have hwne : (q.tail + i) % q.capacity ≠ t := by
      rw [← hpossame]
      have h0 := add_mod_ne_add_mod t (i + 1) q.capacity (by omega) (by omega)
      rw [Nat.add_zero, Nat.mod_eq_of_lt htlt] at h0
      exact fun hcontra => h0 hcontra.symm
    simp only [Function.comp]
    rw [hpossame]
    simp [hwne]

/-! ## Send and receive sequences for the FIFO claim -/

/-- Send each item of vs with xQueueSend (alias of xQueueSendToBack),
stopping at the first failure; result is pdTRUE when every send succeeded. -/
def sendList {A : Type} (q : EmuQueue A) : List A → Int × EmuQueue A
  | [] => (pdTRUE, q)
  | v :: vs =>
    let r := xQueueSend q v
    if r.1 = pdTRUE then sendList r.2 vs else (pdFALSE, r.2)

/-- Perform k xQueueReceive calls, collecting each (result, received value). -/
def recvList {A : Type} (q : EmuQueue A) : Nat → List (Int × Option A) × EmuQueue A
  | 0 => ([], q)
  | k + 1 =>
    let r := xQueueReceive q
    let rest := recvList r.2.2 k
    ((r.1, r.2.1) :: rest.1, rest.2)

theorem sendList_fifo {A : Type} (vs : List A) (q : EmuQueue A) (l : List A)
    (h : queueInv q) (habs : absQ q = l) (hlen : l.length + vs.length ≤ q.capacity) :
    (sendList q vs).1 = pdTRUE ∧ queueInv (sendList q vs).2 ∧
      absQ (sendList q vs).2 = l ++ vs ∧ (sendList q vs).2.capacity = q.capacity := by
  induction vs generalizing q l with
  | nil => exact ⟨rfl, h, by simpa using habs, rfl⟩
  | cons v vs ih =>
    have hcnt : q.count = l.length := by rw [← habs, length_absQ]
    have hroom : q.count < q.capacity := by
      simp only [List.length_cons] at hlen
      omega
    obtain ⟨hr, habs2⟩ := absQ_sendToBack q v h hroom
    have hinv2 := queueInv_sendToBack q v h
    have hcap2 : (xQueueSendToBack q v).2.capacity = q.capacity := by
      simp [xQueueSendToBack, if_neg (Nat.not_le_of_lt hroom)]
    have step := ih (xQueueSendToBack q v).2 (l ++ [v]) hinv2 (by rw [habs2, habs])
      (by simp only [List.length_append, List.length_singleton, hcap2]
          simp only [List.length_cons] at hlen
          omega)
    simp only [sendList, xQueueSend, hr, if_pos]
    refine ⟨step.1, step.2.1, ?_, by rw [step.2.2.2, hcap2]⟩
    rw [step.2.2.1, List.append_assoc, List.singleton_append]

theorem recvList_fifo {A : Type} (l : List A) (q : EmuQueue A)
    (h : queueInv q) (habs : absQ q = l) :
    (recvList q l.length).1 = l.map (fun v => (pdTRUE, some v)) ∧
      absQ (recvList q l.length).2 = [] := by
  induction l generalizing q with
  | nil => exact ⟨rfl, habs⟩
  | cons v vs ih =>
    have hne : q.count ≠ 0 := by
      rw [← length_absQ q, habs]
      simp
    obtain ⟨hr, hv, hcons⟩ := absQ_receive q h hne
    rw [habs] at hcons
    have hv2 : q.buffer q.tail = v := by
      have := hcons
      injection this with h1 h2
      exact h1.symm
    have habs2 : absQ (xQueueReceive q).2.2 = vs := by
      injection hcons with h1 h2
      exact h2.symm
    have step := ih (xQueueReceive q).2.2 (queueInv_receive q h) habs2
    simp only [List.length_cons, recvList]
    refine ⟨?_, step.2⟩
    rw [step.1, hr, hv, hv2]
    simp

/-- C1: FIFO delivery.  Sending the items of vs (with vs.length at most the
capacity n, n at least 1) into a freshly created queue succeeds, and the next
vs.length xQueueReceive calls all succeed and return exactly the items of vs
in send order.  Moreover, for any queue state q satisfying the ring-buffer
invariant and not full, xQueueSendToFront of w succeeds, the next successful
xQueueReceive returns w, and the abstract queue content becomes w followed by
the previous content, so w is observed before every item already queued. -/
theorem queue_fifo_order (A : Type) [Inhabited A] (n : Nat) (vs : List A)
    (w : A) (q : EmuQueue A) (hn : 1 ≤ n) (hlen : vs.length ≤ n)
    (hq : queueInv q) (hroom : q.count < q.capacity) :
    ((sendList (xQueueCreate A n) vs).1 = pdTRUE ∧
      (recvList (sendList (xQueueCreate A n) vs).2 vs.length).1 =
        vs.map (fun v => (pdTRUE, some v))) ∧
    ((xQueueSendToFront q w).1 = pdTRUE ∧
      (xQueueReceive (xQueueSendToFront q w).2).2.1 = some w ∧
      absQ (xQueueSendToFront q w).2 = w :: absQ q) := by
  constructor
  · have hsend := sendList_fifo vs (xQueueCreate A n) [] (queueInv_create A n hn)
      (absQ_create A n) (by simpa [xQueueCreate] using hlen)
    have hrecv := recvList_fifo vs (sendList (xQueueCreate A n) vs).2
      hsend.2.1 hsend.2.2.1
    exact ⟨hsend.1, hrecv.1⟩
  · obtain ⟨hr, habs⟩ := absQ_sendToFront q w hq hroom
    have hinv2 := queueInv_sendToFront q w hq
    have hne : (xQueueSendToFront q w).2.count ≠ 0 := by
      rw [← length_absQ, habs]
      simp
    obtain ⟨hr2, hv2, hcons2⟩ := absQ_receive _ hinv2 hne
    rw [habs] at hcons2
    injection hcons2 with h1 h2
    exact ⟨hr, by rw [hv2, ← h1], habs⟩

/-- C1 witness. -/
theorem queue_fifo_order_witness :
    ((sendList (xQueueCreate Nat 3) [10, 20]).1 = pdTRUE ∧
      (recvList (sendList (xQueueCreate Nat 3) [10, 20]).2 2).1 =
        [10, 20].map (fun v => (pdTRUE, some v))) ∧
    ((xQueueSendToFront (xQueueCreate Nat 1) 5).1 = pdTRUE ∧
      (xQueueReceive (xQueueSendToFront (xQueueCreate Nat 1) 5).2).2.1 = some 5 ∧
      absQ (xQueueSendToFront (xQueueCreate Nat 1) 5).2 =
        5 :: absQ (xQueueCreate Nat 1)) :=
  queue_fifo_order Nat 3 [10, 20] 5 (xQueueCreate Nat 1) (by decide) (by decide)
    (queueInv_create Nat 1 (by decide)) (by decide)

/-! ## Event groups (emu_freertos.c lines 716-822)

struct emu_event_group stores a 32-bit EventBits_t mask.  EventBits_t values
are modelled as Nat below 2^32; the C bitwise complement of a uint32 is
xor with 0xFFFFFFFF. -/

def U32_MASK : Nat := 4294967295

structure EmuEventGroup where
  bits : Nat
deriving Repr, DecidableEq

/-- xEventGroupCreate: calloc zeroes the bit mask. -/
def xEventGroupCreate : EmuEventGroup := { bits := 0 }

/-- xEventGroupSetBits: bits |= toSet; returns the new mask. -/
def xEventGroupSetBits (eg : EmuEventGroup) (toSet : Nat) : Nat × EmuEventGroup :=
  (eg.bits ||| toSet, { bits := eg.bits ||| toSet })

/-- xEventGroupClearBits: bits &= ~toClear; returns the old mask. -/
def xEventGroupClearBits (eg : EmuEventGroup) (toClear : Nat) : Nat × EmuEventGroup :=
  (eg.bits, { bits := eg.bits &&& (toClear ^^^ U32_MASK) })

/-- The wait predicate of xEventGroupWaitBits: all requested bits present,
or at least one requested bit present. -/
def evg_satisfied (bits waitBits : Nat) (waitForAll : Bool) : Bool :=
  if waitForAll then (bits &&& waitBits) == waitBits else (bits &&& waitBits) != 0

/-- The satisfied-exit of xEventGroupWaitBits: the returned value is the mask
before clearing; with clear-on-exit the stored mask drops the waited bits. -/
def evg_exit (bits m : Nat) (clear : Bool) : Nat × Nat :=
  (bits, if clear then bits &&& (m ^^^ U32_MASK) else bits)

/-- One return from cond_wait_deadline inside the wait loop: the stored mask
observed on wakeup (other threads may have changed it) and whether the wait
timed out. -/
structure EvgWake where
  bitsNow : Nat
  timedOut : Bool

/-- How xEventGroupWaitBits returned: via a satisfied predicate, via the
deadline, or via the zero-tick poll with the predicate unsatisfied.  Each
carries the returned EventBits_t value and the mask left stored. -/
inductive EvgExit where
  | satisfied (ret newBits : Nat)
  | timedOut (ret newBits : Nat)
  | polled (ret newBits : Nat)
deriving Repr, DecidableEq

/-- The wait loop of xEventGroupWaitBits (lines 797-812): on ETIMEDOUT
return the current mask unchanged; otherwise re-check the predicate and, if
satisfied, return the mask, clearing the waited bits when clear-on-exit. -/
def evg_wait_loop (m : Nat) (clear all : Bool) : List EvgWake → Option EvgExit
  | [] => none
  | w :: rest =>
    if w.timedOut then some (.timedOut w.bitsNow w.bitsNow)
    else if evg_satisfied w.bitsNow m all then
      some (.satisfied (evg_exit w.bitsNow m clear).1 (evg_exit w.bitsNow m clear).2)
    else evg_wait_loop m clear all rest

/-- xEventGroupWaitBits: immediate check under the mutex; zero-tick poll
returns the mask with no clearing; otherwise the deadline wait loop runs,
driven by the trace of wakeups.  none means the trace ended with the call
still blocked. -/
def xEventGroupWaitBits (eg : EmuEventGroup) (m : Nat) (clear all : Bool)
    (ticks : Nat) (trace : List EvgWake) : Option EvgExit :=
  if evg_satisfied eg.bits m all then
    some (.satisfied (evg_exit eg.bits m clear).1 (evg_exit eg.bits m clear).2)
  else if ticks = 0 then some (.polled eg.bits eg.bits)
  else evg_wait_loop m clear all trace

theorem evg_exit_ret (b m : Nat) (c : Bool) : (evg_exit b m c).1 = b := rfl

theorem evg_exit_clear (b m : Nat) : (evg_exit b m true).2 = b &&& (m ^^^ U32_MASK) := rfl

theorem land_not_testBit (b m : Nat) (hb : b < 2 ^ 32) (hm : m < 2 ^ 32) (i : Nat) :
    (b &&& (m ^^^ U32_MASK)).testBit i = (b.testBit i && !(m.testBit i)) := by
  rw [Nat.testBit_land, Nat.testBit_xor]
  by_cases hi : i < 32
  · have hmask : Nat.testBit U32_MASK i = true := by
      have : U32_MASK = 2 ^ 32 - 1 := by decide
      rw [this, Nat.testBit_two_pow_sub_one]
      simpa using hi
    rw [hmask, Bool.xor_true]
  · have hble : 2 ^ 32 ≤ 2 ^ i := Nat.pow_le_pow_right (by decide) (by omega)
    have hbf : b.testBit i = false := Nat.testBit_lt_two_pow (by omega)
    have hmf : m.testBit i = false := Nat.testBit_lt_two_pow (by omega)
    have hmaskf : Nat.testBit U32_MASK i = false := by
      have : U32_MASK = 2 ^ 32 - 1 := by decide
      rw [this, Nat.testBit_two_pow_sub_one]
      simpa using hi
    rw [hbf, hmf, hmaskf]
    simp

theorem evg_wait_loop_sat {m : Nat} {clear all : Bool} (trace : List EvgWake)
    (ret nb : Nat) (htr : ∀ w ∈ trace, w.bitsNow < 2 ^ 32)
    (h : evg_wait_loop m clear all trace = some (EvgExit.satisfied ret nb)) :
    ret < 2 ^ 32 ∧ nb = (evg_exit ret m clear).2 ∧ evg_satisfied ret m all = true := by
  induction trace with
  | nil => simp [evg_wait_loop] at h
  | cons w rest ih =>
    simp only [evg_wait_loop] at h
    by_cases h1 : w.timedOut
    · rw [if_pos h1] at h
      simp at h
    · rw [if_neg h1] at h
      by_cases h2 : evg_satisfied w.bitsNow m all
      · rw [if_pos h2] at h
        simp only [Option.some.injEq, EvgExit.satisfied.injEq, evg_exit] at h
        obtain ⟨h3, h4⟩ := h
        subst h3
        exact ⟨htr w (by simp), h4.symm, h2⟩
      · rw [if_neg h2] at h
        exact ih (fun u hu => htr u (List.mem_cons_of_mem _ hu)) h

theorem evg_wait_loop_timeout {m : Nat} {clear all : Bool} (trace : List EvgWake)
    (ret nb : Nat)
    (h : evg_wait_loop m clear all trace = some (EvgExit.timedOut ret nb)) :
    nb = ret := by
  induction trace with
  | nil => simp [evg_wait_loop] at h
  | cons w rest ih =>
    simp only [evg_wait_loop] at h
    by_cases h1 : w.timedOut
    · rw [if_pos h1] at h
      simp only [Option.some.injEq, EvgExit.timedOut.injEq] at h
      omega
    · rw [if_neg h1] at h
      by_cases h2 : evg_satisfied w.bitsNow m all
      · rw [if_pos h2] at h
        simp at h
      · rw [if_neg h2] at h
        exact ih h

/-- C3: for every event group, wait mask and mode, an xEventGroupWaitBits
call with clear-on-exit that returns with the wait predicate satisfied
leaves stored exactly the observed mask AND NOT the wait mask: at every bit
position, a requested bit is cleared and a bit outside the request keeps
its observed value; a return by timeout clears nothing (stored mask equals
the returned observed mask). -/
theorem eventgroup_wait_clear_on_exit (eg : EmuEventGroup) (m : Nat) (all : Bool)
    (ticks : Nat) (trace : List EvgWake) (ret nb i : Nat)
    (hm : m < 2 ^ 32) (hb : eg.bits < 2 ^ 32)
    (htr : ∀ w ∈ trace, w.bitsNow < 2 ^ 32) :
    (xEventGroupWaitBits eg m true all ticks trace = some (EvgExit.satisfied ret nb) →
      nb.testBit i = (ret.testBit i && !(m.testBit i))) ∧
    (xEventGroupWaitBits eg m true all ticks trace = some (EvgExit.timedOut ret nb) →
      nb = ret) := by
  constructor
  · intro h
    simp only [xEventGroupWaitBits] at h
    by_cases h1 : evg_satisfied eg.bits m all
    · rw [if_pos h1] at h
      simp only [Option.some.injEq, EvgExit.satisfied.injEq] at h
      obtain ⟨h2, h3⟩ := h
      rw [← h3, ← h2, evg_exit_ret, evg_exit_clear]
      exact land_not_testBit eg.bits m hb hm i
    · rw [if_neg h1] at h
      by_cases h2 : ticks = 0
      · rw [if_pos h2] at h
        injection h with h3
        injection h3
      · rw [if_neg h2] at h
        obtain ⟨hr, hnb, hsat⟩ := evg_wait_loop_sat trace ret nb htr h
        rw [hnb, evg_exit_clear]
        exact land_not_testBit ret m hr hm i
  · intro h
    simp only [xEventGroupWaitBits] at h
    by_cases h1 : evg_satisfied eg.bits m all
    · rw [if_pos h1] at h
      simp at h
    · rw [if_neg h1] at h
      by_cases h2 : ticks = 0
      · rw [if_pos h2] at h
        simp at h
      · rw [if_neg h2] at h
        exact evg_wait_loop_timeout trace ret nb h

/-- C3 witness: event group with bits 0b0110, wait for any of mask 0b0100
with clear-on-exit; the call returns satisfied with observed mask 6 and
stores 2; bit 1 (outside the mask) keeps its value. -/
theorem eventgroup_wait_clear_on_exit_witness :
    Nat.testBit 2 1 = (Nat.testBit 6 1 && !(Nat.testBit 4 1)) :=
  (eventgroup_wait_clear_on_exit { bits := 6 } 4 false 10 [] 6 2 1
    (by decide) (by decide) (by intro w hw; simp at hw)).1 (by decide)

/-! ## Task table (emu_freertos.c lines 129-244)

task_list is a fixed 32-slot array; only the valid flag of each slot is
observable state (the pthread_t itself carries no queue semantics).
xTaskCreate scans for the first invalid slot; stack depth and priority are
ignored by the C code, and malloc/pthread_create are modelled as
succeeding.  vTaskDelete with a non-null handle marks the slot invalid. -/

def MAX_TASKS : Nat := 32

/-- xTaskCreate: first free slot (lowest index with valid == 0) is claimed;
with no free slot the call logs an error and returns pdFAIL; the returned
handle is the 1-based slot index. -/
def xTaskCreate (valid : Nat → Bool) : Int × (Nat → Bool) × Option Nat :=
  match (List.range MAX_TASKS).find? (fun i => ! valid i) with
  | none => (pdFAIL, valid, none)
  | some idx => (pdPASS, fun j => if j = idx then true else valid j, some (idx + 1))

/-- vTaskDelete with an explicit (non-null) handle: idx = handle - 1; out of
range is ignored; otherwise the slot is marked invalid (the thread is
cancelled and joined first, which has no effect on the table). -/
def vTaskDelete (valid : Nat → Bool) (handle : Nat) : Nat → Bool :=
  if 1 ≤ handle ∧ handle ≤ MAX_TASKS then
    fun j => if j = handle - 1 then false else valid j
  else valid

/-! ## Software timers (emu_freertos.c lines 828-1026)

timers is a fixed 16-entry array with a monotonic allocation counter
timer_count; xTimerCreate hands out slot timer_count and increments it,
xTimerDelete only deactivates the slot and clears its callback.  The name
and timer id fields carry no scheduling semantics and are omitted; the
callback pointer is modelled by whether it is non-null. -/

def MAX_TIMERS : Nat := 16

structure EmuTimer where
  period : Nat
  auto_reload : Bool
  active : Bool
  has_callback : Bool
  next_fire_ms : Nat
deriving Repr, DecidableEq

instance : Inhabited EmuTimer :=
  ⟨{ period := 0, auto_reload := false, active := false,
     has_callback := false, next_fire_ms := 0 }⟩

structure TimerState where
  timer_count : Nat
  timers : Nat → EmuTimer

/-- The initial (all-static-zero) timer table. -/
def timerInit : TimerState := { timer_count := 0, timers := fun _ => default }

/-- xTimerCreate: fails (NULL handle) when timer_count has reached
MAX_TIMERS; otherwise slot timer_count is zeroed and initialized, the
counter is incremented, and the 1-based slot index is the handle. -/
def xTimerCreate (ts : TimerState) (period : Nat) (autoReload hasCb : Bool) :
    Option Nat × TimerState :=
  if ts.timer_count ≥ MAX_TIMERS then (none, ts)
  else
    (some (ts.timer_count + 1),
     { timer_count := ts.timer_count + 1,
       timers := fun j => if j = ts.timer_count then
           { period := period, auto_reload := autoReload, active := false,
             has_callback := hasCb, next_fire_ms := 0 }
         else ts.timers j })

/-- xTimerDelete: handles outside 1..timer_count fail; otherwise the slot is
deactivated and its callback cleared.  timer_count is not decremented. -/
def xTimerDelete (ts : TimerState) (handle : Nat) : Int × TimerState :=
  if 1 ≤ handle ∧ handle ≤ ts.timer_count then
    (pdPASS,
     { ts with timers := fun j => if j = handle - 1 then
         { ts.timers (handle - 1) with active := false, has_callback := false }
       else ts.timers j })
  else (pdFAIL, ts)

/-- xTimerStart: activates the timer and schedules it period ms from now. -/
def xTimerStart (ts : TimerState) (handle : Nat) (now : Nat) : Int × TimerState :=
  if 1 ≤ handle ∧ handle ≤ ts.timer_count then
    (pdPASS,
     { ts with timers := fun j => if j = handle - 1 then
         { ts.timers (handle - 1) with
             active := true, next_fire_ms := now + (ts.timers (handle - 1)).period }
       else ts.timers j })
  else (pdFAIL, ts)

/-- One pass of the fire loop of timer_thread_func (lines 890-907) on one
timer: inactive or callback-less timers are skipped, as are timers whose
next_fire_ms is still in the future at the first now_ms() call (nowCheck);
a due auto-reload timer is rescheduled at the second now_ms() call (nowSet)
plus its period, and a due one-shot timer is deactivated. -/
def timerFireStep (t : EmuTimer) (nowCheck nowSet : Nat) : EmuTimer :=
  if !t.active || !t.has_callback then t
  else if nowCheck < t.next_fire_ms then t
  else if t.auto_reload then { t with next_fire_ms := nowSet + t.period }
  else { t with active := false }

/-- C5 counterexample: an active auto-reload timer with period 50 scheduled
at 100, fired when now_ms() reads 103, is rescheduled at 153 = now + period,
not at 150 = next_fire_ms + period as the claim states. -/
theorem timer_autoreload_counterexample :
    (timerFireStep
      { period := 50, auto_reload := true, active := true,
        has_callback := true, next_fire_ms := 100 } 103 103).next_fire_ms = 153 ∧
    (153 : Nat) ≠ 100 + 50 := by
  decide

/-- C5 (amended): when the daemon fires a due auto-reload timer, the next
fire time becomes the current now_ms() reading plus the period (not the old
next_fire_ms plus the period); firing a due one-shot timer sets active to
false; and the fire loop never touches an inactive timer, so a fired
one-shot timer does not fire again unless restarted. -/
theorem timer_fire_semantics (t u : EmuTimer) (n1 n2 m1 m2 : Nat)
    (hact : t.active = true) (hcb : t.has_callback = true)
    (hdue : t.next_fire_ms ≤ n1) (hinact : u.active = false) :
    (t.auto_reload = true → (timerFireStep t n1 n2).next_fire_ms = n2 + t.period) ∧
    (t.auto_reload = false → (timerFireStep t n1 n2).active = false) ∧
    timerFireStep u m1 m2 = u := by
  refine ⟨?_, ?_, ?_⟩
  · intro har
    simp [timerFireStep, hact, hcb, har, Nat.not_lt.mpr hdue]
  · intro har
    simp [timerFireStep, hact, hcb, har, Nat.not_lt.mpr hdue]
  · simp [timerFireStep, hinact]

/-- C5 witness. -/
theorem timer_fire_semantics_witness :
    ((timerFireStep
        { period := 50, auto_reload := true, active := true,
          has_callback := true, next_fire_ms := 100 } 103 103).next_fire_ms =
      103 + 50) ∧
    ((timerFireStep
        { period := 9, auto_reload := false, active := true,
          has_callback := true, next_fire_ms := 4 } 5 6).active = false) ∧
    timerFireStep
      { period := 7, auto_reload := true, active := false,
        has_callback := true, next_fire_ms := 0 } 8 9 =
      { period := 7, auto_reload := true, active := false,
        has_callback := true, next_fire_ms := 0 } := by
  have h1 := (timer_fire_semantics
    { period := 50, auto_reload := true, active := true,
      has_callback := true, next_fire_ms := 100 }
    { period := 7, auto_reload := true, active := false,
      has_callback := true, next_fire_ms := 0 }
    103 103 8 9 (by decide) (by decide) (by decide) (by decide))
  have h2 := (timer_fire_semantics
    { period := 9, auto_reload := false, active := true,
      has_callback := true, next_fire_ms := 4 }
    { period := 7, auto_reload := true, active := false,
      has_callback := true, next_fire_ms := 0 }
    5 6 8 9 (by decide) (by decide) (by decide) (by decide))
  exact ⟨h1.1 (by decide), h2.2.1 (by decide), h1.2.2⟩

/-- n consecutive xTimerCreate calls. -/
def timerCreateN : Nat → TimerState → TimerState
  | 0, ts => ts
  | n + 1, ts => timerCreateN n (xTimerCreate ts 100 true true).2

/-- n consecutive create-then-delete pairs (each delete uses the handle the
create returned, or handle 0 if the create failed). -/
def timerChurnN : Nat → TimerState → TimerState
  | 0, ts => ts
  | n + 1, ts =>
    timerChurnN n
      (xTimerDelete (xTimerCreate ts 100 true true).2
        ((xTimerCreate ts 100 true true).1.getD 0)).2

set_option maxRecDepth 4096 in
/-- C4 counterexample: after 16 successful timer creates the table is full;
a further create fails; deleting a timer succeeds but the next create still
fails, because xTimerDelete never frees the slot; and 16 paired
create/delete operations alone exhaust the table. -/
theorem timer_slot_not_reusable :
    (timerCreateN 16 timerInit).timer_count = 16 ∧
    (xTimerCreate (timerCreateN 16 timerInit) 100 true true).1 = none ∧
    (xTimerDelete (timerCreateN 16 timerInit) 1).1 = pdPASS ∧
    (xTimerCreate (xTimerDelete (timerCreateN 16 timerInit) 1).2 100 true true).1 =
      none ∧
    (xTimerCreate (timerChurnN 16 timerInit) 100 true true).1 = none := by
  decide

/-- C4 (amended): deleting a created task makes its slot reusable — an
xTaskCreate that failed because all 32 task slots were occupied succeeds
after any one vTaskDelete of a valid handle, and task slots cannot leak;
timer slots however are never reclaimed: xTimerDelete leaves timer_count
unchanged, so xTimerCreate admits at most 16 successes over the lifetime of
the process regardless of deletes. -/
theorem task_slot_reuse_timer_slot_leak (tt : Nat → Bool) (h : Nat)
    (ts : TimerState) (ht : Nat)
    (hfail : (xTaskCreate tt).1 = pdFAIL) (h1 : 1 ≤ h) (h2 : h ≤ MAX_TASKS) :
    (xTaskCreate (vTaskDelete tt h)).1 = pdPASS ∧
    (xTimerDelete ts ht).2.timer_count = ts.timer_count := by
  constructor
  · have hnone : (List.range MAX_TASKS).find? (fun i => ! tt i) = none := by
      cases hfind : (List.range MAX_TASKS).find? (fun i => ! tt i) with
      | none => rfl
      | some idx =>
        simp only [xTaskCreate, hfind] at hfail
        exact absurd hfail (by decide)
    have hmem : (h - 1) ∈ List.range MAX_TASKS := List.mem_range.mpr (by omega)
    have hslot : (vTaskDelete tt h) (h - 1) = false := by
      simp [vTaskDelete, if_pos (And.intro h1 h2)]
    have hsome : ((List.range MAX_TASKS).find?
        (fun i => ! (vTaskDelete tt h) i)).isSome := by
      rw [List.find?_isSome]
      exact ⟨h - 1, hmem, by rw [hslot]; rfl⟩
    cases hfind2 : (List.range MAX_TASKS).find? (fun i => ! (vTaskDelete tt h) i) with
    | none => rw [hfind2] at hsome; simp at hsome
    | some idx => simp [xTaskCreate, hfind2]
  · simp only [xTimerDelete]
    split <;> rfl

/-- C4 witness. -/
theorem task_slot_reuse_timer_slot_leak_witness :
    (xTaskCreate (vTaskDelete (fun _ => true) 1)).1 = pdPASS ∧
    (xTimerDelete timerInit 3).2.timer_count = timerInit.timer_count :=
  task_slot_reuse_timer_slot_leak (fun _ => true) 1 timerInit 3
    (by decide) (by decide) (by decide)

/-- C8: a create against a full fixed table fails with the FreeRTOS failure
value and has no side effect: with all 32 task slots valid, xTaskCreate
returns pdFAIL, creates nothing and leaves the table untouched; with
timer_count at its 16-entry cap, xTimerCreate returns a NULL handle and
leaves the timer state untouched. -/
theorem create_on_full_table_fails_cleanly (tt : Nat → Bool) (ts : TimerState)
    (p : Nat) (a c : Bool)
    (hfullT : ∀ i, i < MAX_TASKS → tt i = true)
    (hfullM : ts.timer_count ≥ MAX_TIMERS) :
    xTaskCreate tt = (pdFAIL, tt, none) ∧ xTimerCreate ts p a c = (none, ts) := by
  constructor
  · have hnone : (List.range MAX_TASKS).find? (fun i => ! tt i) = none := by
      rw [List.find?_eq_none]
      intro i hi
      rw [hfullT i (List.mem_range.mp hi)]
      decide
    simp [xTaskCreate, hnone]
  · simp [xTimerCreate, if_pos hfullM]

/-- C8 witness. -/
theorem create_on_full_table_fails_cleanly_witness :
    xTaskCreate (fun _ => true) = (pdFAIL, fun _ => true, none) ∧
    xTimerCreate { timer_count := 16, timers := fun _ => default } 100 true true =
      (none, { timer_count := 16, timers := fun _ => default }) :=
  create_on_full_table_fails_cleanly (fun _ => true)
    { timer_count := 16, timers := fun _ => default } 100 true true
    (fun i _ => rfl) (by decide)

/-! ## Deadline helper (emu_freertos.c lines 67-123)

struct emu_deadline holds an infinite flag and an absolute CLOCK_REALTIME
timespec.  cond_wait_deadline computes the deadline-independent part of each
iteration from three observations: the emu_app_running flag at the loop top,
the clock_gettime reading, and whether pthread_cond_timedwait returned 0.
The ts field is left unset by deadline_init when the deadline is infinite
and is never consulted in that case; the model stores now there. -/

structure Timespec where
  sec : Int
  nsec : Int
deriving Repr, DecidableEq

/-- The single carry normalization used after every tv_nsec addition. -/
def tsNorm (t : Timespec) : Timespec :=
  if t.nsec ≥ 1000000000 then { sec := t.sec + 1, nsec := t.nsec - 1000000000 }
  else t

structure EmuDeadline where
  infinite : Bool
  ts : Timespec
deriving Repr, DecidableEq

/-- deadline_init: portMAX_DELAY marks the deadline infinite; any other tick
count fixes the absolute deadline at now plus ticks/1000 seconds and
(ticks mod 1000) milliseconds, normalized once.  The deadline is computed
exactly once, before the wait loop runs. -/
def deadline_init (now : Timespec) (ticks : Nat) : EmuDeadline :=
  if ticks = portMAX_DELAY then { infinite := true, ts := now }
  else
    { infinite := false,
      ts := tsNorm { sec := now.sec + ((ticks / 1000 : Nat) : Int),
                     nsec := now.nsec + ((ticks % 1000 : Nat) : Int) * 1000000 } }

/-- The deadline-passed test of line 103: sec greater, or equal sec and nsec
at least. -/
def tsGeB (a b : Timespec) : Bool :=
  decide (a.sec > b.sec ∨ (a.sec = b.sec ∧ a.nsec ≥ b.nsec))

/-- The clamp test of line 115: sec greater, or equal sec and nsec greater. -/
def tsGtB (a b : Timespec) : Bool :=
  decide (a.sec > b.sec ∨ (a.sec = b.sec ∧ a.nsec > b.nsec))

/-- now plus the 100 ms slice (lines 108-112). -/
def tsAdd100 (t : Timespec) : Timespec :=
  tsNorm { sec := t.sec, nsec := t.nsec + 100000000 }

/-- The absolute wakeup target of one wait slice: now + 100 ms, clamped to
the deadline when the deadline is finite and earlier (lines 108-118). -/
def cond_wait_slice_target (dl : EmuDeadline) (now : Timespec) : Timespec :=
  if !dl.infinite && tsGtB (tsAdd100 now) dl.ts then dl.ts else tsAdd100 now

/-- One iteration of the cond_wait_deadline loop as observed by the thread:
the shutdown flag read at the loop top, the clock reading, and whether the
timedwait returned 0. -/
structure WaitObs where
  running : Bool
  now : Timespec
  signaled : Bool

inductive WaitResult where
  | exited
  | timedout
  | signaled
deriving Repr, DecidableEq

/-- cond_wait_deadline: on shutdown the thread exits (pthread_exit); a
finite deadline at or before now returns ETIMEDOUT; a timedwait that
returned 0 returns signaled; otherwise the loop repeats with the deadline
unchanged.  none means the trace ended with the loop still waiting. -/
def cond_wait_deadline (dl : EmuDeadline) : List WaitObs → Option WaitResult
  | [] => none
  | o :: rest =>
    if !o.running then some .exited
    else if !dl.infinite && tsGeB o.now dl.ts then some .timedout
    else if o.signaled then some .signaled
    else cond_wait_deadline dl rest

/-- Total nanoseconds of a timespec. -/
def tsToNs (t : Timespec) : Int := t.sec * 1000000000 + t.nsec

theorem tsToNs_tsNorm (t : Timespec) : tsToNs (tsNorm t) = tsToNs t := by
  simp only [tsNorm, tsToNs]
  split
  · dsimp only
    ring_nf
  · rfl

theorem tsGtB_imp_tsGeB (a b : Timespec) (h : tsGtB a b = true) :
    tsGeB a b = true := by
  simp only [tsGtB, decide_eq_true_eq] at h
  simp only [tsGeB, decide_eq_true_eq]
  rcases h with h | ⟨h1, h2⟩
  · exact Or.inl h
  · exact Or.inr ⟨h1, le_of_lt h2⟩

theorem tsGeB_refl (a : Timespec) : tsGeB a a = true := by
  simp [tsGeB]

theorem cond_wait_deadline_timedout (dl : EmuDeadline) (trace : List WaitObs)
    (h : cond_wait_deadline dl trace = some WaitResult.timedout) :
    ∃ u ∈ trace, u.running = true ∧ dl.infinite = false ∧ tsGeB u.now dl.ts = true := by
  induction trace with
  | nil => simp [cond_wait_deadline] at h
  | cons o rest ih =>
    simp only [cond_wait_deadline] at h
    cases hr : o.running with
    | false =>
      rw [hr] at h
      simp at h
    | true =>
      rw [hr] at h
      simp only [Bool.not_true, Bool.false_eq_true, if_false] at h
      by_cases hd : (!dl.infinite && tsGeB o.now dl.ts) = true
      · rw [if_pos hd] at h
        rw [Bool.and_eq_true, Bool.not_eq_true'] at hd
        exact ⟨o, by simp, hr, hd.1, hd.2⟩
      · rw [if_neg hd] at h
        by_cases hs : o.signaled = true
        · rw [if_pos hs] at h
          simp at h
        · rw [if_neg hs] at h
          obtain ⟨u, hu, hprops⟩ := ih h
          exact ⟨u, List.mem_cons_of_mem _ hu, hprops⟩

theorem cond_wait_deadline_signaled (dl : EmuDeadline) (trace : List WaitObs)
    (h : cond_wait_deadline dl trace = some WaitResult.signaled) :
    ∃ u ∈ trace, u.signaled = true := by
  induction trace with
  | nil => simp [cond_wait_deadline] at h
  | cons o rest ih =>
    simp only [cond_wait_deadline] at h
    cases hr : o.running with
    | false =>
      rw [hr] at h
      simp at h
    | true =>
      rw [hr] at h
      simp only [Bool.not_true, Bool.false_eq_true, if_false] at h
      by_cases hd : (!dl.infinite && tsGeB o.now dl.ts) = true
      · rw [if_pos hd] at h
        simp at h
      · rw [if_neg hd] at h
        by_cases hs : o.signaled = true
        · exact ⟨o, by simp, hs⟩
        · rw [if_neg hs] at h
          obtain ⟨u, hu, hprop⟩ := ih h
          exact ⟨u, List.mem_cons_of_mem _ hu, hprop⟩

/-- C7: the deadline helper contract.  deadline_init computes, once and
before any waiting, an absolute deadline equal to now plus exactly ticks
milliseconds for every finite tick count, and marks the deadline infinite
exactly for portMAX_DELAY; the wait loop exits the calling thread as soon
as an iteration observes shutdown, before sleeping; the
absolute wakeup target of every wait slice is at most now plus 100 ms; a timed-out return
happens only at an iteration where the finite deadline had passed; a
signaled return happens only at an iteration whose cond-timedwait was
actually signaled; and an infinite deadline never returns timed-out. -/
theorem deadline_wait_contract (now : Timespec) (ticks : Nat) (dl : EmuDeadline)
    (trace : List WaitObs) (o : WaitObs) (rest : List WaitObs)
    (hn1 : now.nsec < 1000000000) (hfin : ticks ≠ portMAX_DELAY) :
    (tsToNs (deadline_init now ticks).ts =
        tsToNs now + (ticks : Int) * 1000000 ∧
      (deadline_init now ticks).infinite = false) ∧
    (deadline_init now portMAX_DELAY).infinite = true ∧
    (o.running = false → cond_wait_deadline dl (o :: rest) = some WaitResult.exited) ∧
    tsGeB (tsAdd100 now) (cond_wait_slice_target dl now) = true ∧
    (cond_wait_deadline dl trace = some WaitResult.timedout →
      ∃ u ∈ trace, u.running = true ∧ dl.infinite = false ∧
        tsGeB u.now dl.ts = true) ∧
    (cond_wait_deadline dl trace = some WaitResult.signaled →
      ∃ u ∈ trace, u.signaled = true) ∧
    (dl.infinite = true → cond_wait_deadline dl trace ≠ some WaitResult.timedout) := by
  refine ⟨⟨?_, ?_⟩, ?_, ?_, ?_, ?_, ?_, ?_⟩
  · simp only [deadline_init, if_neg hfin]
    rw [tsToNs_tsNorm]
    simp only [tsToNs]
    have hdm := Nat.div_add_mod ticks 1000
    omega
  · simp [deadline_init, if_neg hfin]
  · simp [deadline_init]
  · intro hr
    simp [cond_wait_deadline, hr]
  · by_cases hc : (!dl.infinite && tsGtB (tsAdd100 now) dl.ts) = true
    · simp only [cond_wait_slice_target, if_pos hc]
      rw [Bool.and_eq_true] at hc
      exact tsGtB_imp_tsGeB _ _ hc.2
    · simp only [cond_wait_slice_target, if_neg hc]
      exact tsGeB_refl _
  · exact cond_wait_deadline_timedout dl trace
  · exact cond_wait_deadline_signaled dl trace
  · intro hinf h
    obtain ⟨u, hu, hr2, hinf2, hge⟩ := cond_wait_deadline_timedout dl trace h
    rw [hinf] at hinf2
    cases hinf2

/-- C7 witness. -/
theorem deadline_wait_contract_witness :
    (tsToNs (deadline_init ⟨5, 10⟩ 2500).ts =
        tsToNs ⟨5, 10⟩ + ((2500 : Nat) : Int) * 1000000 ∧
      (deadline_init ⟨5, 10⟩ 2500).infinite = false) ∧
    (deadline_init ⟨5, 10⟩ portMAX_DELAY).infinite = true ∧
    ((⟨false, ⟨0, 0⟩, false⟩ : WaitObs).running = false →
      cond_wait_deadline ⟨false, ⟨9, 0⟩⟩
        [⟨false, ⟨0, 0⟩, false⟩] = some WaitResult.exited) ∧
    tsGeB (tsAdd100 ⟨5, 10⟩)
      (cond_wait_slice_target ⟨false, ⟨9, 0⟩⟩ ⟨5, 10⟩) = true ∧
    (cond_wait_deadline ⟨false, ⟨9, 0⟩⟩ [⟨true, ⟨100, 0⟩, false⟩] =
        some WaitResult.timedout →
      ∃ u ∈ [(⟨true, ⟨100, 0⟩, false⟩ : WaitObs)], u.running = true ∧
        (⟨false, ⟨9, 0⟩⟩ : EmuDeadline).infinite = false ∧
        tsGeB u.now (⟨9, 0⟩ : Timespec) = true) ∧
    (cond_wait_deadline ⟨false, ⟨9, 0⟩⟩ [⟨true, ⟨100, 0⟩, false⟩] =
        some WaitResult.signaled →
      ∃ u ∈ [(⟨true, ⟨100, 0⟩, false⟩ : WaitObs)], u.signaled = true) ∧
    ((⟨false, ⟨9, 0⟩⟩ : EmuDeadline).infinite = true →
      cond_wait_deadline ⟨false, ⟨9, 0⟩⟩ [⟨true, ⟨100, 0⟩, false⟩] ≠
        some WaitResult.timedout) :=
  deadline_wait_contract ⟨5, 10⟩ 2500 ⟨false, ⟨9, 0⟩⟩
    [⟨true, ⟨100, 0⟩, false⟩] ⟨false, ⟨0, 0⟩, false⟩ [⟨false, ⟨0, 0⟩, false⟩]
    (by decide) (by decide)


/-! ## NVS per-namespace file format (emu_nvs.c lines 22-140)

An in-memory entry is a NUL-terminated key (strlen < 16, so the key bytes
are nonzero) plus a sized byte value; a namespace holds at most 128 entries.
ns_save writes, for each entry in order, a u8 key_len, the key bytes, a u32
value_len little-endian and the value bytes, rewriting the whole file;
ns_load reads records back until the table is full, a read comes up short,
key_len is 0 or not below 16, or value_len exceeds the 1 MiB sanity limit. -/

def NVS_MAX_KEY_LEN : Nat := 16
def NVS_MAX_ENTRIES : Nat := 128

structure NvsEntry where
  key : List Nat
  value : List Nat
deriving Repr, DecidableEq

/-- The four bytes fwrite(&vlen, 1, 4) stores for a uint32_t on the
little-endian host. -/
def le32 (n : Nat) : List Nat :=
  [n % 256, n / 256 % 256, n / 65536 % 256, n / 16777216 % 256]

/-- ns_save: one record per entry, in order; key_len is the uint8_t cast of
strlen(key), value_len the uint32_t cast of the entry size. -/
def ns_save : List NvsEntry → List Nat
  | [] => []
  | e :: es =>
    (e.key.length % 256) :: e.key ++ le32 (e.value.length % 4294967296) ++
      e.value ++ ns_save es

/-- ns_load: parse records while the entry table has room (the fuel argument
is NVS_MAX_ENTRIES minus the entries loaded so far); stop on a short read,
a key_len of 0 or not below NVS_MAX_KEY_LEN, or a value_len above the 1 MiB
sanity limit. -/
def ns_load : Nat → List Nat → List NvsEntry
  | 0, _ => []
  | _ + 1, [] => []
  | room + 1, klen :: rest =>
    if klen = 0 ∨ klen ≥ NVS_MAX_KEY_LEN then []
    else if rest.length < klen then []
    else
      match rest.drop klen with
      | b0 :: b1 :: b2 :: b3 :: rest3 =>
        if b0 + 256 * b1 + 65536 * b2 + 16777216 * b3 > 1048576 then []
        else if rest3.length < b0 + 256 * b1 + 65536 * b2 + 16777216 * b3 then []
        else
          { key := rest.take klen,
            value := rest3.take (b0 + 256 * b1 + 65536 * b2 + 16777216 * b3) } ::
            ns_load room (rest3.drop (b0 + 256 * b1 + 65536 * b2 + 16777216 * b3))
      | _ => []

/-- C6 counterexample: a namespace with the single entry key "k", value of
1048577 zero bytes (one byte above the 1 MiB limit).  ns_save happily
writes the record, but ns_load rejects its value_len and reconstructs an
empty namespace, so the round trip loses the entry. -/
theorem nvs_roundtrip_counterexample :
    ns_load NVS_MAX_ENTRIES
        (ns_save [{ key := [107], value := List.replicate 1048577 0 }]) = [] ∧
    ([] : List NvsEntry) ≠ [{ key := [107], value := List.replicate 1048577 0 }] := by
  constructor
  · obtain ⟨V, hV⟩ : ∃ V : List Nat, V = List.replicate 1048577 0 := ⟨_, rfl⟩
    have hlen : V.length = 1048577 := by rw [hV, List.length_replicate]
    rw [← hV]
    have h1 : ns_save [{ key := [107], value := V }] =
        1 :: 107 :: 1 :: 0 :: 16 :: 0 :: (V ++ []) := by
      simp only [ns_save, hlen, le32, List.length_cons, List.length_nil]
      norm_num
    rw [h1]
    show ns_load (127 + 1) (1 :: 107 :: 1 :: 0 :: 16 :: 0 :: (V ++ [])) = []
    simp only [ns_load]
    rw [if_neg (by decide : ¬((1 : Nat) = 0 ∨ (1 : Nat) ≥ NVS_MAX_KEY_LEN))]
    rw [if_neg (by simp : ¬((107 :: 1 :: 0 :: 16 :: 0 :: (V ++ [])).length < 1))]
    simp only [List.drop_succ_cons, List.drop_zero]
    norm_num
  · intro h
    exact List.noConfusion h

theorem ns_load_ns_save (es : List NvsEntry) (room : Nat)
    (hroom : es.length ≤ room)
    (hwf : ∀ e ∈ es, e.key ≠ [] ∧ e.key.length < NVS_MAX_KEY_LEN ∧
      e.value.length ≤ 1048576) :
    ns_load room (ns_save es) = es := by
  induction es generalizing room with
  | nil => cases room <;> simp [ns_save, ns_load]
  | cons e es ih =>
    obtain ⟨hk0, hklt, hv⟩ := hwf e (by simp)
    have hkne : e.key.length ≠ 0 := by simpa using hk0
    have h16 : NVS_MAX_KEY_LEN = 16 := rfl
    obtain ⟨r, hr⟩ : ∃ r, room = r + 1 := by
      cases room with
      | zero => simp at hroom
      | succ r => exact ⟨r, rfl⟩
    subst hr
    have hklen : e.key.length % 256 = e.key.length := by
      rw [h16] at hklt
      omega
    have hvlen : e.value.length % 4294967296 = e.value.length := by omega
    have hsave : ns_save (e :: es) =
        e.key.length :: (e.key ++ (le32 e.value.length ++ (e.value ++ ns_save es))) := by
      simp [ns_save, hklen, hvlen, List.append_assoc]
    rw [hsave]
    simp only [ns_load]
    rw [if_neg (by rw [h16]; omega : ¬(e.key.length = 0 ∨ e.key.length ≥ NVS_MAX_KEY_LEN))]
    rw [if_neg (by simp : ¬((e.key ++ (le32 e.value.length ++ (e.value ++ ns_save es))).length < e.key.length))]
    rw [List.drop_left, List.take_left]
    have hdecode : (e.value.length % 256) + 256 * (e.value.length / 256 % 256) +
        65536 * (e.value.length / 65536 % 256) +
        16777216 * (e.value.length / 16777216 % 256) = e.value.length := by
      omega
    simp only [le32, List.cons_append, List.nil_append, hdecode]
    rw [if_neg (by omega : ¬(e.value.length > 1048576))]
    rw [if_neg (by simp : ¬((e.value ++ ns_save es).length < e.value.length))]
    rw [List.drop_left, List.take_left]
    exact congrArg (fun l => { key := e.key, value := e.value } :: l)
      (ih r (by simpa using hroom) (fun u hu => hwf u (List.mem_cons_of_mem _ hu)))

/-- C6 (amended): the NVS per-namespace file format round-trips for every
in-memory namespace whose entries have nonempty keys shorter than 16 bytes
and values of at most 1 MiB (1048576 bytes): ns_save writes the sequence of
{u8 key_len, key bytes, u32 value_len LE, value bytes} records, rewriting
the entire file, and ns_load reconstructs exactly the same sequence of
entries with the same keys, sizes and value bytes.  (Values above the 1 MiB
sanity limit of ns_load are saved but rejected on load, so the unrestricted
claim fails.) -/
theorem nvs_save_load_roundtrip (es : List NvsEntry)
    (hroom : es.length ≤ NVS_MAX_ENTRIES)
    (hwf : ∀ e ∈ es, e.key ≠ [] ∧ e.key.length < NVS_MAX_KEY_LEN ∧
      e.value.length ≤ 1048576) :
    ns_load NVS_MAX_ENTRIES (ns_save es) = es :=
  ns_load_ns_save es NVS_MAX_ENTRIES hroom hwf

/-- C6 witness. -/
theorem nvs_save_load_roundtrip_witness :
    ns_load NVS_MAX_ENTRIES
        (ns_save [{ key := [107], value := [9, 8] }, { key := [97, 98], value := [] }]) =
      [{ key := [107], value := [9, 8] }, { key := [97, 98], value := [] }] :=
  nvs_save_load_roundtrip
    [{ key := [107], value := [9, 8] }, { key := [97, 98], value := [] }]
    (by decide) (by decide)

/-! ## Guest UART log ring (emu_flexe.c lines 74-104)

uart_log_cb receives each guest UART byte: LF or CR flushes the
accumulated line, any other byte is appended while the 256-byte
accumulator has room (uart_pos < 255).  uart_flush_line ignores empty
lines; a non-empty line is strncpy-ed into emu_log_ring[emu_log_head]
(at most 47 bytes, NUL-terminated) and the head advances modulo 64.
Each ring entry is modelled by its C-string content. -/

def EMU_LOG_LINES : Nat := 64

structure UartState where
  line : List Nat
  ring : Nat → List Nat
  head : Nat

/-- The C string left in a ring slot by strncpy(dst, line, 47); dst[47]=0:
the first at-most-47 bytes of the line, stopping at any NUL byte. -/
def cstr47 (l : List Nat) : List Nat := (l.take 47).takeWhile (fun b => b != 0)

/-- uart_flush_line: an empty accumulator writes nothing and does not move
the head; otherwise the line is stored at the head, the head advances
modulo EMU_LOG_LINES, and the accumulator resets. -/
def uart_flush_line (s : UartState) : UartState :=
  if s.line.length = 0 then s
  else
    { line := [],
      ring := fun j => if j = s.head then cstr47 s.line else s.ring j,
      head := (s.head + 1) % EMU_LOG_LINES }

/-- uart_log_cb on one byte: LF (10) or CR (13) flushes; otherwise the byte
is appended when uart_pos < 255, else dropped. -/
def uart_log_cb (s : UartState) (b : Nat) : UartState :=
  if b = 10 ∨ b = 13 then uart_flush_line s
  else if s.line.length < 255 then { s with line := s.line ++ [b] }
  else s

/-- Deliver a byte sequence to the UART callback. -/
def uartProcess (s : UartState) (bs : List Nat) : UartState :=
  bs.foldl uart_log_cb s

/-- Reference splitter: the completed non-empty lines of a byte stream
(split on LF/CR, capped at 255 bytes each) and the trailing partial line. -/
def uartLines : List Nat → List Nat → List (List Nat) × List Nat
  | acc, [] => ([], acc)
  | acc, b :: bs =>
    if b = 10 ∨ b = 13 then
      if acc.length = 0 then uartLines [] bs
      else
        let r := uartLines [] bs
        (acc :: r.1, r.2)
    else if acc.length < 255 then uartLines (acc ++ [b]) bs
    else uartLines acc bs

/-- Write a list of entries at consecutive head positions modulo
EMU_LOG_LINES. -/
def writeRing (ring : Nat → List Nat) (head : Nat) : List (List Nat) → (Nat → List Nat)
  | [] => ring
  | l :: ls =>
    writeRing (fun j => if j = head then l else ring j) ((head + 1) % EMU_LOG_LINES) ls

theorem uartProcess_eq (bs : List Nat) (s : UartState)
    (hh : s.head < EMU_LOG_LINES) :
    uartProcess s bs =
      { line := (uartLines s.line bs).2,
        ring := writeRing s.ring s.head ((uartLines s.line bs).1.map cstr47),
        head := (s.head + (uartLines s.line bs).1.length) % EMU_LOG_LINES } := by
  induction bs generalizing s with
  | nil =>
    cases s with
    | mk line ring hd =>
      simp only [uartProcess, List.foldl_nil, uartLines, writeRing, List.map_nil,
        List.length_nil, Nat.add_zero]
      rw [Nat.mod_eq_of_lt hh]
  | cons b bs ih =>
    show uartProcess (uart_log_cb s b) bs = _
    by_cases hd : b = 10 ∨ b = 13
    · by_cases hline : s.line.length = 0
      · have hnil : s.line = [] := List.length_eq_zero.mp hline
        have hcb : uart_log_cb s b = s := by
          simp [uart_log_cb, hd, uart_flush_line, hline]
        rw [hcb, ih s hh]
        rw [hnil]
        simp [uartLines, if_pos hd]
      · have hcb : uart_log_cb s b = uart_flush_line s := by
          simp [uart_log_cb, hd]
        have hflush : uart_flush_line s =
            { line := [],
              ring := fun j => if j = s.head then cstr47 s.line else s.ring j,
              head := (s.head + 1) % EMU_LOG_LINES } := by
          simp [uart_flush_line, hline]
        have hh2 : ((s.head + 1) % EMU_LOG_LINES) < EMU_LOG_LINES :=
          Nat.mod_lt _ (by simp [EMU_LOG_LINES])
        rw [hcb, hflush, ih _ hh2]
        simp only [uartLines, if_pos hd, if_neg hline, List.map_cons, List.length_cons]
        simp only [writeRing]
        refine congrArg (fun h => UartState.mk _ _ h) ?_
        rw [Nat.mod_add_mod]
        congr 1
        omega
    · by_cases hlen : s.line.length < 255
      · have hcb : uart_log_cb s b =
            { s with line := s.line ++ [b] } := by
          simp [uart_log_cb, hd, hlen]
        rw [hcb, ih { s with line := s.line ++ [b] } hh]
        simp only [uartLines, if_neg hd, if_pos hlen]
      · have hcb : uart_log_cb s b = s := by
          simp [uart_log_cb, hd, hlen]
        rw [hcb, ih s hh]
        simp only [uartLines, if_neg hd, if_neg hlen]

/-- C9: UART bytes are accumulated into lines split on LF or CR.  Processing
any byte sequence writes exactly the completed non-empty lines, each
truncated to its first at-most-47 characters, at consecutive head positions
of the 64-entry ring, advancing the head once per stored line modulo 64; a
delimiter arriving with an empty accumulator writes nothing and leaves the
head in place; the stored entry for a line is a prefix of that line of
length at most 47. -/
theorem uart_ring_log (bs : List Nat) (s t : UartState) (b : Nat)
    (hh : s.head < EMU_LOG_LINES) (hb : b = 10 ∨ b = 13) :
    (uartProcess s bs =
      { line := (uartLines s.line bs).2,
        ring := writeRing s.ring s.head ((uartLines s.line bs).1.map cstr47),
        head := (s.head + (uartLines s.line bs).1.length) % EMU_LOG_LINES }) ∧
    (t.line ≠ [] → uart_log_cb t b =
      { line := [],
        ring := fun j => if j = t.head then cstr47 t.line else t.ring j,
        head := (t.head + 1) % EMU_LOG_LINES }) ∧
    (t.line = [] → uart_log_cb t b = t) ∧
    (cstr47 t.line).length ≤ 47 ∧
    (cstr47 t.line) <+: t.line := by
  refine ⟨uartProcess_eq bs s hh, ?_, ?_, ?_, ?_⟩
  · intro hne
    have hlt : t.line.length ≠ 0 := by simpa using hne
    simp [uart_log_cb, hb, uart_flush_line, hlt]
  · intro hnil
    simp [uart_log_cb, hb, uart_flush_line, hnil]
  · calc (cstr47 t.line).length ≤ (t.line.take 47).length :=
          (List.takeWhile_sublist _).length_le
      _ ≤ 47 := by rw [List.length_take]; omega
  · exact List.IsPrefix.trans ( List.takeWhile_prefix _) ( List.take_prefix _ _)

/-- C9 witness. -/
theorem uart_ring_log_witness :
    (uartProcess ⟨[], fun _ => [], 0⟩ [72, 105, 10, 10, 13, 65] =
      { line := (uartLines [] [72, 105, 10, 10, 13, 65]).2,
        ring := writeRing (fun _ => []) 0
          ((uartLines [] [72, 105, 10, 10, 13, 65]).1.map cstr47),
        head := (0 + (uartLines [] [72, 105, 10, 10, 13, 65]).1.length) %
          EMU_LOG_LINES }) ∧
    ((⟨[9], fun _ => [], 5⟩ : UartState).line ≠ [] →
      uart_log_cb ⟨[9], fun _ => [], 5⟩ 10 =
      { line := [],
        ring := fun j => if j = 5 then cstr47 [9] else (fun _ => ([] : List Nat)) j,
        head := (5 + 1) % EMU_LOG_LINES }) ∧
    ((⟨[9], fun _ => [], 5⟩ : UartState).line = [] →
      uart_log_cb ⟨[9], fun _ => [], 5⟩ 10 = ⟨[9], fun _ => [], 5⟩) ∧
    (cstr47 [9]).length ≤ 47 ∧
    (cstr47 [9]) <+: [9] :=
  uart_ring_log [72, 105, 10, 10, 13, 65] ⟨[], fun _ => [], 0⟩
    ⟨[9], fun _ => [], 5⟩ 10 (by decide) (Or.inl rfl)
